import Mathlib

/-!
Shallow embedding of the memaccess region enumerator and memory reader
(package memaccess, Linux implementation) together with theorems checking
the design document's statements about it.

The embedded functions are `nextMemoryRegion`, `nextReadableMemoryRegion`
and `copyMemory`.  The `/proc/<pid>/maps` listing consumed by the two
enumerator functions is modelled as a list of already-scanned lines: the
external helpers `common.SplitMapsFileEntry` and
`common.ParseMapsFileMemoryLimits` are represented by the shape of each
line (a well-formed six-field entry, a line that does not split into six
fields, or a line whose address range fails to parse).  `bufio.Scanner` is
modelled by the list of lines it delivers plus the error, if any, that
`scanner.Err()` reports once the loop is over.  Machine integers
(`uintptr`, `uint`, both 64-bit) are modelled as `Nat` with explicit
reduction modulo `2 ^ 64` exactly where the Go code can wrap.
-/

namespace Memaccess

/-- Modulus of the 64-bit `uintptr` and `uint` arithmetic used by the code. -/
def wordSize : Nat := 2 ^ 64

/-- Wrapping 64-bit addition, as in Go `x + y` on `uintptr`/`uint`. -/
def uadd (a b : Nat) : Nat := (a + b) % wordSize

/-- Wrapping 64-bit subtraction, as in Go `x - y` on `uintptr` (`uint(end - start)`). -/
def usub (a b : Nat) : Nat := (((a : Int) - (b : Int)) % (wordSize : Int)).toNat

/-- Modelled from the spec: the permission bitmask constants of the
`memaccess` package (`None`, `Readable`, `Writable`, `Executable`), whose
defining file is not part of the sources at hand; the spec describes them
as independent Read/Write/Execute bits, absence of all bits being the zero
value. -/
def AccessNone : Nat := 0

/-- Read bit of the permission bitmask (see `AccessNone`). -/
def Readable : Nat := 1

/-- Write bit of the permission bitmask (see `AccessNone`). -/
def Writable : Nat := 2

/-- Execute bit of the permission bitmask (see `AccessNone`). -/
def Executable : Nat := 4

/-- The `MemoryRegion` struct: base address, size, permission bitmask and
kind tag.  Addresses and sizes are 64-bit machine integers in the code,
modelled as `Nat`. -/
structure MemoryRegion where
  Address : Nat
  Size : Nat
  Access : Nat
  Kind : String
  deriving DecidableEq, Repr

/-- Modelled from the spec: the sentinel `NoRegionAvailable` ("no region
available", size 0, address 0), whose defining file is not part of the
sources at hand.  It coincides with the zero value `MemoryRegion{}` used
by the code. -/
def NoRegionAvailable : MemoryRegion := ⟨0, 0, 0, ""⟩

/-- A well-formed six-field `/proc/<pid>/maps` record as the enumerator
loop consumes it: `rangeStr` is the raw address-range field (`items[0]`),
`start`/`stop` the two addresses `common.ParseMapsFileMemoryLimits`
extracts from it, `permR`/`permW`/`permX` the first three characters of
the permission field (`items[1][0]`, `items[1][1]`, `items[1][2]`), and
`kind` the trailing tag (`items[5]`).  Fields `items[2..4]` (offset,
device, inode) are never consulted by the code and are not modelled. -/
structure MapsEntry where
  rangeStr : String
  start : Nat
  stop : Nat
  permR : Char
  permW : Char
  permX : Char
  kind : String
  deriving DecidableEq, Repr

/-- One scanned line of the maps listing: either a well-formed entry, a
line that `common.SplitMapsFileEntry` does not split into exactly six
fields, or a six-field line whose range field fails
`common.ParseMapsFileMemoryLimits` (yielding that parser's error). -/
inductive MapsLine where
  | entry (e : MapsEntry)
  | malformed (line : String)
  | limitsError (msg : String)
  deriving DecidableEq, Repr

/-- Permission bitmask computed by `nextMemoryRegion` from the permission
field: starting from `None`, add `Readable`, `Writable`, `Executable` for
each of the first three characters that is not a dash. -/
def accessOf (e : MapsEntry) : Nat :=
  let a := AccessNone
  let a := if e.permR ≠ '-' then a + Readable else a
  let a := if e.permW ≠ '-' then a + Writable else a
  let a := if e.permX ≠ '-' then a + Executable else a
  a

/-- Loop body of `nextMemoryRegion`: walk the scanned lines, skip the
`[vsyscall]` entry and entries whose end is at or below `address`, and
return the first remaining entry as a `MemoryRegion` carrying its start,
size, permission bits and kind.  A malformed line or a range-parse
failure aborts with the current (never reassigned, hence zero) region and
a fatal error.  The scanner error is never consulted: the loop simply
ends and the sentinel is returned. -/
def nmrLoop (address : Nat) : List MapsLine → MemoryRegion → List String →
    MemoryRegion × Option String × List String
  | [], _, soft => (NoRegionAvailable, none, soft)
  | .malformed line :: _, region, soft =>
      (region, some ("Unrecognised maps line: " ++ line), soft)
  | .limitsError msg :: _, region, soft => (region, some msg, soft)
  | .entry e :: rest, region, soft =>
      if e.kind = "[vsyscall]" then
        nmrLoop address rest region soft
      else if e.stop ≤ address then
        nmrLoop address rest region soft
      else
        (⟨e.start, usub e.stop e.start, accessOf e, e.kind⟩, none, soft)

/-- The function `nextMemoryRegion(p, address)`.  `openErr` is the result
of `os.Open` on the maps file (failure returns immediately with the
zero-valued named `region` return), `lines` the lines the scanner
delivers, `scanErr` what `scanner.Err()` would report afterwards — which
this function never checks. -/
def nextMemoryRegion (openErr : Option String) (lines : List MapsLine)
    (scanErr : Option String) (address : Nat) :
    MemoryRegion × Option String × List String :=
  match openErr, scanErr with
  | some e, _ => (⟨0, 0, 0, ""⟩, some e, [])
  | none, _ => nmrLoop address lines ⟨0, 0, 0, ""⟩ []

/-- Loop body of `nextReadableMemoryRegion`: walk the scanned lines
carrying the accumulated `region` and the `softerrors` list.  Entries
ending at or below `address` and the `[vsyscall]` entry are skipped.  An
unreadable entry (first permission character a dash) ends and returns the
accumulated region when one is in progress (`region.Address != 0`), and
otherwise appends a softerror naming the entry's raw range and continues.
A readable entry starts the region when `region.Address == 0`, extends it
when contiguous (`region.Address + region.Size == start`), and otherwise
causes the accumulated region to be returned.  At the end of the listing
the scanner error, if any, is fatal and the sentinel is returned;
otherwise the accumulated region is returned when `region.Address > 0`
and the sentinel when not. -/
def nrmrLoop (address : Nat) : List MapsLine → Option String → MemoryRegion →
    List String → MemoryRegion × Option String × List String
  | [], scanErr, region, soft =>
      match scanErr with
      | some err => (NoRegionAvailable, some err, soft)
      | none =>
          if region.Address > 0 then (region, none, soft)
          else (NoRegionAvailable, none, soft)
  | .malformed line :: _, _, region, soft =>
      (region, some ("Unrecognised maps line: " ++ line), soft)
  | .limitsError msg :: _, _, region, soft => (region, some msg, soft)
  | .entry e :: rest, scanErr, region, soft =>
      if e.stop ≤ address then
        nrmrLoop address rest scanErr region soft
      else if e.kind = "[vsyscall]" then
        nrmrLoop address rest scanErr region soft
      else if e.permR = '-' then
        if region.Address ≠ 0 then (region, none, soft)
        else nrmrLoop address rest scanErr region
          (soft ++ ["Unreadable memory " ++ e.rangeStr])
      else
        let size := usub e.stop e.start
        if region.Address = 0 then
          nrmrLoop address rest scanErr ⟨e.start, size, 0, ""⟩ soft
        else if uadd region.Address region.Size = e.start then
          nrmrLoop address rest scanErr
            ⟨region.Address, uadd region.Size size, region.Access, region.Kind⟩ soft
        else
          (region, none, soft)

/-- The function `nextReadableMemoryRegion(p, address)`, with the same
modelling of `os.Open`, the scanned lines and `scanner.Err()` as
`nextMemoryRegion`. -/
def nextReadableMemoryRegion (openErr : Option String) (lines : List MapsLine)
    (scanErr : Option String) (address : Nat) :
    MemoryRegion × Option String × List String :=
  match openErr with
  | some e => (⟨0, 0, 0, ""⟩, some e, [])
  | none => nrmrLoop address lines scanErr ⟨0, 0, 0, ""⟩ []

/-- Lowercase hexadecimal rendering of an address, as Go `%x`. -/
def hexStr (n : Nat) : String := String.mk (Nat.toDigits 16 n)

/-- The function `copyMemory(p, address, buffer)`.  `openErr` models the
result of `os.Open` on the mem file and `readResult` the pair
`(bytes_read, error)` that `mem.ReadAt(buffer, int64(address))` returns;
`bufLen` is `len(buffer)`.  An open failure or a read error is wrapped in
a message naming the requested length and address; a read that returns
without error but fills fewer (or other) than `len(buffer)` bytes is the
fatal error about not reading the entire buffer; otherwise no error. -/
def copyMemory (openErr : Option String) (readResult : Nat × Option String)
    (bufLen : Nat) (address : Nat) : Option String × List String :=
  match openErr with
  | some e =>
      (some ("Error while reading " ++ toString bufLen ++ " bytes starting at "
        ++ hexStr address ++ ": " ++ e), [])
  | none =>
      match readResult with
      | (_, some e) =>
          (some ("Error while reading " ++ toString bufLen ++ " bytes starting at "
            ++ hexStr address ++ ": " ++ e), [])
      | (bytesRead, none) =>
          if bytesRead ≠ bufLen then (some "Could not read the entire buffer", [])
          else (none, [])

/-! Arithmetic facts about the wrapping 64-bit operations. -/

theorem uadd_eq {a b : Nat} (h : a + b < wordSize) : uadd a b = a + b :=
  Nat.mod_eq_of_lt h

theorem usub_eq {a b : Nat} (h1 : b ≤ a) (h2 : a - b < wordSize) :
    usub a b = a - b := by
  unfold usub
  have hcast : (a : Int) - (b : Int) = ((a - b : Nat) : Int) := by
    omega
  rw [hcast, Int.emod_eq_of_lt (by omega) (by exact_mod_cast h2)]
  omega

/-- Accumulated regions carry only an address and a size: the loop of
`nextReadableMemoryRegion` never writes the `Access` or `Kind` field, so
both stay at their zero values throughout. -/
theorem nrmrLoop_access_kind (a : Nat) (lines : List MapsLine) (scanErr : Option String)
    (region : MemoryRegion) (soft : List String)
    (h1 : region.Access = 0) (h2 : region.Kind = "") :
    (nrmrLoop a lines scanErr region soft).1.Access = 0
      ∧ (nrmrLoop a lines scanErr region soft).1.Kind = "" := by
  induction lines generalizing region soft with
  | nil =>
    cases scanErr with
    | some err => simp [nrmrLoop, NoRegionAvailable]
    | none =>
      by_cases h : region.Address > 0 <;> simp [nrmrLoop, h, h1, h2, NoRegionAvailable]
  | cons l rest ih =>
    cases l with
    | malformed line => simp [nrmrLoop, h1, h2]
    | limitsError msg => simp [nrmrLoop, h1, h2]
    | entry e =>
      by_cases hle : e.stop ≤ a
      · simpa [nrmrLoop, hle] using ih region soft h1 h2
      · by_cases hk : e.kind = "[vsyscall]"
        · simpa [nrmrLoop, hle, hk] using ih region soft h1 h2
        · by_cases hp : e.permR = '-'
          · by_cases hz : region.Address = 0
            · simpa [nrmrLoop, hle, hk, hp, hz] using
                ih region (soft ++ ["Unreadable memory " ++ e.rangeStr]) h1 h2
            · simp [nrmrLoop, hle, hk, hp, hz, h1, h2]
          · by_cases hz : region.Address = 0
            · simpa [nrmrLoop, hle, hk, hp, hz] using
                ih ⟨e.start, usub e.stop e.start, 0, ""⟩ soft rfl rfl
            · by_cases hc : uadd region.Address region.Size = e.start
              · simpa [nrmrLoop, hle, hk, hp, hz, hc] using
                  ih ⟨region.Address, uadd region.Size (usub e.stop e.start),
                    region.Access, region.Kind⟩ soft h1 h2
              · simp [nrmrLoop, hle, hk, hp, hz, hc, h1, h2]

/-- C2: in the `nextReadableMemoryRegion` loop, an unreadable entry met
before any accumulation has begun (`region.Address = 0`) appends exactly
one softerror naming the entry's raw address range and continues the
scan, while an unreadable entry met after accumulation has begun
(`region.Address ≠ 0`) makes the loop return the accumulated region with
a nil fatal error and the softerror list unchanged. -/
theorem unreadable_entry_softerror_or_ends_region (e : MapsEntry) (rest : List MapsLine)
    (scanErr : Option String) (region : MemoryRegion) (soft : List String) (a : Nat)
    (hstop : a < e.stop) (hkind : e.kind ≠ "[vsyscall]") (hperm : e.permR = '-') :
    (region.Address = 0 →
      nrmrLoop a (.entry e :: rest) scanErr region soft
        = nrmrLoop a rest scanErr region (soft ++ ["Unreadable memory " ++ e.rangeStr]))
    ∧ (region.Address ≠ 0 →
      nrmrLoop a (.entry e :: rest) scanErr region soft = (region, none, soft)) := by
  constructor <;> intro h <;>
    simp [nrmrLoop, Nat.not_le.mpr hstop, hkind, hperm, h]

/-- Witness for C2 at a concrete unreadable entry with no accumulation in
progress. -/
theorem unreadable_entry_softerror_or_ends_region_witness :
    nrmrLoop 0 [.entry ⟨"1000-2000", 4096, 8192, '-', '-', '-', ""⟩] none ⟨0, 0, 0, ""⟩ []
      = nrmrLoop 0 [] none ⟨0, 0, 0, ""⟩ ([] ++ ["Unreadable memory " ++ "1000-2000"]) :=
  (unreadable_entry_softerror_or_ends_region ⟨"1000-2000", 4096, 8192, '-', '-', '-', ""⟩
    [] none ⟨0, 0, 0, ""⟩ [] 0 (by decide) (by decide) rfl).1 rfl

/-- C6: a listing line that does not split into exactly six fields makes
both enumerator loops return at once with a fatal error naming the
unrecognised line, leaving the softerror list untouched; through the
top-level functions the fatal error comes with the zero-valued region. -/
theorem malformed_line_fatal (line : String) (rest : List MapsLine)
    (region : MemoryRegion) (soft : List String) (a : Nat) (scanErr : Option String) :
    nmrLoop a (.malformed line :: rest) region soft
      = (region, some ("Unrecognised maps line: " ++ line), soft)
    ∧ nrmrLoop a (.malformed line :: rest) scanErr region soft
      = (region, some ("Unrecognised maps line: " ++ line), soft)
    ∧ nextMemoryRegion none (.malformed line :: rest) scanErr a
      = (⟨0, 0, 0, ""⟩, some ("Unrecognised maps line: " ++ line), [])
    ∧ nextReadableMemoryRegion none (.malformed line :: rest) scanErr a
      = (⟨0, 0, 0, ""⟩, some ("Unrecognised maps line: " ++ line), []) :=
  ⟨rfl, rfl, rfl, rfl⟩

/-- C7: `copyMemory` never reports success on a short read — if the
positioned read returns fewer bytes than the buffer length the fatal
error is non-nil, and a nil fatal error implies the read returned exactly
the buffer length. -/
theorem copyMemory_short_read_fatal (openErr : Option String)
    (bytesRead : Nat) (readErr : Option String) (bufLen address : Nat) :
    (0 < bufLen → bytesRead < bufLen →
      (copyMemory openErr (bytesRead, readErr) bufLen address).1 ≠ none)
    ∧ ((copyMemory openErr (bytesRead, readErr) bufLen address).1 = none →
        bytesRead = bufLen) := by
  constructor
  · intro _ hlt h
    cases openErr with
    | some e => simp [copyMemory] at h
    | none =>
      cases readErr with
      | some e => simp [copyMemory] at h
      | none =>
        by_cases hb : bytesRead = bufLen
        · exact absurd hb (Nat.ne_of_lt hlt)
        · simp [copyMemory, hb] at h
  · intro h
    cases openErr with
    | some e => simp [copyMemory] at h
    | none =>
      cases readErr with
      | some e => simp [copyMemory] at h
      | none =>
        by_cases hb : bytesRead = bufLen
        · exact hb
        · simp [copyMemory, hb] at h

/-- Witness for C7: a 2-byte read against a 4-byte buffer is fatal. -/
theorem copyMemory_short_read_fatal_witness :
    (copyMemory none (2, none) 4 0).1 ≠ none :=
  (copyMemory_short_read_fatal none 2 none 4 0).1 (by decide) (by decide)

/-- Counterexample to C8: a skipped `[vsyscall]` entry leaves the
returned softerror list empty — the skip is not recorded — for both
enumerator functions on a listing holding only that entry. -/
theorem vsyscall_skip_no_softerror_cex :
    nextMemoryRegion none
        [.entry ⟨"f000-10000", 0xf000, 0x10000, 'r', '-', 'x', "[vsyscall]"⟩] none 0
      = (NoRegionAvailable, none, [])
    ∧ nextReadableMemoryRegion none
        [.entry ⟨"f000-10000", 0xf000, 0x10000, 'r', '-', 'x', "[vsyscall]"⟩] none 0
      = (NoRegionAvailable, none, []) := by
  constructor <;> decide

/-- C8 as amended: a `[vsyscall]` entry is skipped silently by both
enumerator loops — the region, softerror list and everything else are as
if the entry were absent; in particular no softerror is recorded for the
skip. -/
theorem vsyscall_skipped_silently (e : MapsEntry) (rest : List MapsLine)
    (scanErr : Option String) (region : MemoryRegion) (soft : List String) (a : Nat)
    (hkind : e.kind = "[vsyscall]") :
    nmrLoop a (.entry e :: rest) region soft = nmrLoop a rest region soft
    ∧ nrmrLoop a (.entry e :: rest) scanErr region soft
        = nrmrLoop a rest scanErr region soft := by
  constructor
  · simp [nmrLoop, hkind]
  · by_cases hle : e.stop ≤ a <;> simp [nrmrLoop, hkind, hle]

/-- Witness for the amended C8 at a concrete `[vsyscall]` entry. -/
theorem vsyscall_skipped_silently_witness :
    nmrLoop 0 [.entry ⟨"f000-10000", 0xf000, 0x10000, 'r', '-', 'x', "[vsyscall]"⟩]
        ⟨0, 0, 0, ""⟩ []
      = nmrLoop 0 [] ⟨0, 0, 0, ""⟩ []
    ∧ nrmrLoop 0 [.entry ⟨"f000-10000", 0xf000, 0x10000, 'r', '-', 'x', "[vsyscall]"⟩]
        none ⟨0, 0, 0, ""⟩ []
      = nrmrLoop 0 [] none ⟨0, 0, 0, ""⟩ [] :=
  vsyscall_skipped_silently ⟨"f000-10000", 0xf000, 0x10000, 'r', '-', 'x', "[vsyscall]"⟩
    [] none ⟨0, 0, 0, ""⟩ [] 0 rfl

/-- C9: accumulation is tracked solely through `region.Address ≠ 0`, so a
readable entry whose start address is 0 never registers as a started
region — on a listing made of such an entry followed by an unreadable
one, `nextReadableMemoryRegion` returns the sentinel instead of the
mapping, and the unreadable entry is recorded as a softerror rather than
ending the region. -/
theorem zero_base_readable_entry_lost (e u : MapsEntry) (a : Nat)
    (hstart : e.start = 0) (hestop : a < e.stop) (hekind : e.kind ≠ "[vsyscall]")
    (heperm : e.permR ≠ '-')
    (hustop : a < u.stop) (hukind : u.kind ≠ "[vsyscall]") (huperm : u.permR = '-') :
    nextReadableMemoryRegion none [.entry e, .entry u] none a
      = (NoRegionAvailable, none, ["Unreadable memory " ++ u.rangeStr]) := by
  simp [nextReadableMemoryRegion, nrmrLoop, Nat.not_le.mpr hestop, Nat.not_le.mpr hustop,
    hekind, heperm, hukind, huperm, hstart]

/-- Witness for C9 at a concrete readable mapping based at address 0. -/
theorem zero_base_readable_entry_lost_witness :
    nextReadableMemoryRegion none
        [.entry ⟨"0-1000", 0, 4096, 'r', 'w', 'x', ""⟩,
         .entry ⟨"1000-2000", 4096, 8192, '-', '-', '-', "[heap]"⟩] none 0
      = (NoRegionAvailable, none, ["Unreadable memory " ++ "1000-2000"]) :=
  zero_base_readable_entry_lost ⟨"0-1000", 0, 4096, 'r', 'w', 'x', ""⟩
    ⟨"1000-2000", 4096, 8192, '-', '-', '-', "[heap]"⟩ 0 rfl (by decide) (by decide)
    (by decide) (by decide) (by decide) rfl

/-- C10: every region `nextReadableMemoryRegion` yields carries a zero
permission bitmask and an empty kind tag, whatever the listing holds,
whereas `nextMemoryRegion` returns the entry's permission bits and kind
tag. -/
theorem readable_region_access_kind_zero (openErr : Option String) (lines : List MapsLine)
    (scanErr : Option String) (a : Nat) (e : MapsEntry) (rest : List MapsLine)
    (hstop : a < e.stop) (hkind : e.kind ≠ "[vsyscall]") :
    ((nextReadableMemoryRegion openErr lines scanErr a).1.Access = 0
      ∧ (nextReadableMemoryRegion openErr lines scanErr a).1.Kind = "")
    ∧ ((nextMemoryRegion none (.entry e :: rest) scanErr a).1.Access = accessOf e
      ∧ (nextMemoryRegion none (.entry e :: rest) scanErr a).1.Kind = e.kind) := by
  constructor
  · cases openErr with
    | some err => simp [nextReadableMemoryRegion]
    | none => exact nrmrLoop_access_kind a lines scanErr ⟨0, 0, 0, ""⟩ [] rfl rfl
  · constructor <;> simp [nextMemoryRegion, nmrLoop, hkind, Nat.not_le.mpr hstop]

/-- Witness for C10 at a concrete listing. -/
theorem readable_region_access_kind_zero_witness :
    ((nextReadableMemoryRegion none [] none 0).1.Access = 0
      ∧ (nextReadableMemoryRegion none [] none 0).1.Kind = "")
    ∧ ((nextMemoryRegion none
          [.entry ⟨"1000-2000", 4096, 8192, 'r', '-', '-', "[heap]"⟩] none 0).1.Access
        = accessOf ⟨"1000-2000", 4096, 8192, 'r', '-', '-', "[heap]"⟩
      ∧ (nextMemoryRegion none
          [.entry ⟨"1000-2000", 4096, 8192, 'r', '-', '-', "[heap]"⟩] none 0).1.Kind
        = "[heap]") :=
  readable_region_access_kind_zero none [] none 0
    ⟨"1000-2000", 4096, 8192, 'r', '-', '-', "[heap]"⟩ [] (by decide) (by decide)

/-! Lines the enumerator loops pass over, and the effect of a run of such
lines at the head of the listing. -/

/-- A listing line that the `nextMemoryRegion` loop skips at address `a`:
a well-formed entry ending at or below `a` or the `[vsyscall]` entry. -/
def skipForNMR (a : Nat) (l : MapsLine) : Prop :=
  ∃ e, l = .entry e ∧ (e.stop ≤ a ∨ e.kind = "[vsyscall]")

/-- A listing line that the `nextReadableMemoryRegion` loop passes over
at address `a` without beginning an accumulation: a well-formed entry
ending at or below `a`, the `[vsyscall]` entry, or an unreadable entry. -/
def skipForNRMR (a : Nat) (l : MapsLine) : Prop :=
  ∃ e, l = .entry e ∧ (e.stop ≤ a ∨ e.kind = "[vsyscall]" ∨ e.permR = '-')

/-- Skipped lines at the head of the listing do not affect the
`nextMemoryRegion` loop. -/
theorem nmrLoop_skip (a : Nat) : ∀ (pre : List MapsLine),
    (∀ l ∈ pre, skipForNMR a l) →
    ∀ (rest : List MapsLine) (region : MemoryRegion) (soft : List String),
    nmrLoop a (pre ++ rest) region soft = nmrLoop a rest region soft
  | [], _, rest, region, soft => rfl
  | l :: pre, h, rest, region, soft => by
    obtain ⟨e, hl, hskip⟩ := h l (List.mem_cons_self _ _)
    subst hl
    have hpre : ∀ l ∈ pre, skipForNMR a l := fun l hm => h l (List.mem_cons_of_mem _ hm)
    have hrec := nmrLoop_skip a pre hpre rest region soft
    rcases hskip with hle | hk
    · by_cases hkind : e.kind = "[vsyscall]"
      · simpa [nmrLoop, hkind] using hrec
      · simpa [nmrLoop, hkind, hle] using hrec
    · simpa [nmrLoop, hk] using hrec

/-- Passed-over lines at the head of the listing leave the
`nextReadableMemoryRegion` loop on the zero region, only possibly adding
softerrors. -/
theorem nrmrLoop_skip (a : Nat) : ∀ (pre : List MapsLine),
    (∀ l ∈ pre, skipForNRMR a l) →
    ∀ (rest : List MapsLine) (scanErr : Option String) (soft : List String),
    ∃ soft2, nrmrLoop a (pre ++ rest) scanErr ⟨0, 0, 0, ""⟩ soft
      = nrmrLoop a rest scanErr ⟨0, 0, 0, ""⟩ soft2
  | [], _, rest, scanErr, soft => ⟨soft, rfl⟩
  | l :: pre, h, rest, scanErr, soft => by
    obtain ⟨e, hl, hskip⟩ := h l (List.mem_cons_self _ _)
    subst hl
    have hpre : ∀ l ∈ pre, skipForNRMR a l := fun l hm => h l (List.mem_cons_of_mem _ hm)
    by_cases hle : e.stop ≤ a
    · obtain ⟨soft2, hrec⟩ := nrmrLoop_skip a pre hpre rest scanErr soft
      exact ⟨soft2, by simpa [nrmrLoop, hle] using hrec⟩
    · by_cases hk : e.kind = "[vsyscall]"
      · obtain ⟨soft2, hrec⟩ := nrmrLoop_skip a pre hpre rest scanErr soft
        exact ⟨soft2, by simpa [nrmrLoop, hle, hk] using hrec⟩
      · have hp : e.permR = '-' := by
          rcases hskip with h1 | h1 | h1
          exacts [absurd h1 hle, absurd h1 hk, h1]
        obtain ⟨soft2, hrec⟩ := nrmrLoop_skip a pre hpre rest scanErr
          (soft ++ ["Unreadable memory " ++ e.rangeStr])
        exact ⟨soft2, by simpa [nrmrLoop, hle, hk, hp] using hrec⟩

/-- Counterexample to C3: on a listing whose first entry is the
`[vsyscall]` page, the first listing entry whose end exceeds the address
is that page, yet `nextMemoryRegion` does not return it — the returned
base address is the second entry's, not `0xf000`. -/
theorem nextMemoryRegion_first_entry_cex :
    (nextMemoryRegion none
        [.entry ⟨"f000-10000", 0xf000, 0x10000, 'r', '-', 'x', "[vsyscall]"⟩,
         .entry ⟨"10000-11000", 0x10000, 0x11000, 'r', 'w', '-', "[heap]"⟩]
        none 0).1.Address ≠ 0xf000 := by decide

/-- C3 as amended: `nextMemoryRegion` returns the first listing entry
that is not the `[vsyscall]` special mapping and whose end address is
strictly greater than the given address — regardless of its permission
bits — with base address, size, permission bits and kind tag taken from
that entry. -/
theorem nextMemoryRegion_first_unskipped (pre : List MapsLine) (e : MapsEntry)
    (rest : List MapsLine) (a : Nat) (scanErr : Option String)
    (hpre : ∀ l ∈ pre, skipForNMR a l)
    (hstop : a < e.stop) (hkind : e.kind ≠ "[vsyscall]") :
    nextMemoryRegion none (pre ++ .entry e :: rest) scanErr a
      = (⟨e.start, usub e.stop e.start, accessOf e, e.kind⟩, none, []) := by
  show nmrLoop a (pre ++ .entry e :: rest) ⟨0, 0, 0, ""⟩ [] = _
  rw [nmrLoop_skip a pre hpre]
  simp [nmrLoop, hkind, Nat.not_le.mpr hstop]

/-- Witness for the amended C3: the `[vsyscall]` page is passed over and
the following write-only entry is returned with its fields. -/
theorem nextMemoryRegion_first_unskipped_witness :
    nextMemoryRegion none
        ([.entry ⟨"f000-10000", 0xf000, 0x10000, 'r', '-', 'x', "[vsyscall]"⟩]
          ++ .entry ⟨"10000-11000", 0x10000, 0x11000, '-', 'w', '-', "[heap]"⟩ :: []) none 0
      = (⟨0x10000, usub 0x11000 0x10000,
          accessOf ⟨"10000-11000", 0x10000, 0x11000, '-', 'w', '-', "[heap]"⟩, "[heap]"⟩,
         none, []) :=
  nextMemoryRegion_first_unskipped
    [.entry ⟨"f000-10000", 0xf000, 0x10000, 'r', '-', 'x', "[vsyscall]"⟩]
    ⟨"10000-11000", 0x10000, 0x11000, '-', 'w', '-', "[heap]"⟩ [] 0 none
    (fun l hm => by
      rw [List.mem_singleton] at hm
      exact ⟨_, hm, Or.inr rfl⟩)
    (by decide) (by decide)

/-- Counterexample to C4: `nextMemoryRegion` never consults the scanner
error, so an OS-level read failure while reading the listing is not
returned as the fatal error — the sentinel comes back with a nil error
instead. -/
theorem nextMemoryRegion_scan_error_dropped_cex :
    (nextMemoryRegion none [] (some "read failure") 0).2.1 ≠ some "read failure" := by
  decide

/-- C4 as amended: when iteration reaches the end of the listing with no
region to return, `nextMemoryRegion` yields the "no region available"
sentinel with a nil fatal error whether or not an OS-level read failure
occurred (it never checks the scanner error), while
`nextReadableMemoryRegion` yields the sentinel with the scanner error as
its fatal error: nil on a clean end, the read failure if one occurred. -/
theorem end_of_listing_sentinel (lines : List MapsLine) (a : Nat)
    (scanErr : Option String) :
    ((∀ l ∈ lines, skipForNMR a l) →
      nextMemoryRegion none lines scanErr a = (NoRegionAvailable, none, []))
    ∧ ((∀ l ∈ lines, skipForNRMR a l) →
      (nextReadableMemoryRegion none lines scanErr a).1 = NoRegionAvailable
        ∧ (nextReadableMemoryRegion none lines scanErr a).2.1 = scanErr) := by
  constructor
  · intro h
    show nmrLoop a lines ⟨0, 0, 0, ""⟩ [] = _
    have hskip := nmrLoop_skip a lines h [] ⟨0, 0, 0, ""⟩ []
    rw [List.append_nil] at hskip
    rw [hskip]
    rfl
  · intro h
    obtain ⟨soft2, hrec⟩ := nrmrLoop_skip a lines h [] scanErr []
    rw [List.append_nil] at hrec
    have h1 : nextReadableMemoryRegion none lines scanErr a
        = nrmrLoop a [] scanErr ⟨0, 0, 0, ""⟩ soft2 := hrec
    rw [h1]
    cases scanErr <;> simp [nrmrLoop, NoRegionAvailable]

/-- Witness for the amended C4 on an exhausted listing with a mid-listing
read failure. -/
theorem end_of_listing_sentinel_witness :
    nextMemoryRegion none [] (some "boom") 0 = (NoRegionAvailable, none, [])
    ∧ ((nextReadableMemoryRegion none [] (some "boom") 0).1 = NoRegionAvailable
        ∧ (nextReadableMemoryRegion none [] (some "boom") 0).2.1 = some "boom") :=
  ⟨(end_of_listing_sentinel [] 0 (some "boom")).1 (by simp),
   (end_of_listing_sentinel [] 0 (some "boom")).2 (by simp)⟩

/-! Accumulation of contiguous readable entries. -/

/-- A run of maps entries that extend an accumulated readable region one
after another: each is readable, not the `[vsyscall]` page, ends above
the enumeration address `a`, starts exactly at the accumulated end
(`d` for the first entry), and has machine-representable addresses. -/
def extChain (a : Nat) : Nat → List MapsEntry → Prop
  | _, [] => True
  | d, e :: es => e.start = d ∧ a < e.stop ∧ e.kind ≠ "[vsyscall]" ∧ e.permR ≠ '-'
      ∧ e.start ≤ e.stop ∧ e.stop < wordSize ∧ extChain a e.stop es

instance extChainDec (a : Nat) : ∀ (d : Nat) (es : List MapsEntry),
    Decidable (extChain a d es)
  | _, [] => .isTrue trivial
  | d, e :: es => by
      have := extChainDec a e.stop es
      unfold extChain
      infer_instance

/-- End address of a run of contiguous entries started at `d`. -/
def chainEnd : Nat → List MapsEntry → Nat
  | d, [] => d
  | _, e :: es => chainEnd e.stop es

/-- The end of a contiguous run is its start plus the sum of the entry
sizes, and it stays below the word size. -/
theorem extChain_end (a : Nat) : ∀ (es : List MapsEntry) (d : Nat), extChain a d es →
    chainEnd d es = d + (es.map (fun x => x.stop - x.start)).sum
      ∧ (d < wordSize → chainEnd d es < wordSize)
  | [], d, _ => by simp [chainEnd]
  | e :: es, d, h => by
      obtain ⟨hstart, _, _, _, hle, hw, hrest⟩ := h
      obtain ⟨ih1, ih2⟩ := extChain_end a es e.stop hrest
      constructor
      · show chainEnd e.stop es = _
        rw [ih1]
        simp [List.map_cons, List.sum_cons]
        omega
      · intro _
        show chainEnd e.stop es < wordSize
        exact ih2 hw

/-- A readable entry ending above `a` seen with no accumulation in
progress starts the region at the entry's start and size. -/
theorem nrmrLoop_start (a : Nat) (e : MapsEntry) (rest : List MapsLine)
    (scanErr : Option String) (soft : List String)
    (hstop : a < e.stop) (hkind : e.kind ≠ "[vsyscall]") (hperm : e.permR ≠ '-') :
    nrmrLoop a (.entry e :: rest) scanErr ⟨0, 0, 0, ""⟩ soft
      = nrmrLoop a rest scanErr ⟨e.start, usub e.stop e.start, 0, ""⟩ soft := by
  simp [nrmrLoop, Nat.not_le.mpr hstop, hkind, hperm]

/-- A contiguous run of readable entries extends the accumulated region
by the sum of their sizes. -/
theorem nrmrLoop_extend (a : Nat) : ∀ (ext : List MapsEntry) (s z : Nat)
    (rest : List MapsLine) (scanErr : Option String) (soft : List String),
    s ≠ 0 → s + z < wordSize → extChain a (s + z) ext →
    nrmrLoop a (ext.map .entry ++ rest) scanErr ⟨s, z, 0, ""⟩ soft
      = nrmrLoop a rest scanErr
          ⟨s, z + (ext.map (fun x => x.stop - x.start)).sum, 0, ""⟩ soft
  | [], s, z, rest, scanErr, soft, _, _, _ => by simp
  | e :: ext, s, z, rest, scanErr, soft, hs, hw, hchain => by
      obtain ⟨hstart, hstop, hkind, hperm, hle, hew, hrest⟩ := hchain
      have h1 : usub e.stop e.start = e.stop - e.start :=
        usub_eq hle (lt_of_le_of_lt (Nat.sub_le _ _) hew)
      have h2 : uadd s z = e.start := by rw [uadd_eq hw, hstart]
      have h3 : uadd z (usub e.stop e.start) = z + (e.stop - e.start) := by
        rw [h1]; exact uadd_eq (by omega)
      have hstep : nrmrLoop a ((e :: ext).map .entry ++ rest) scanErr ⟨s, z, 0, ""⟩ soft
          = nrmrLoop a (ext.map .entry ++ rest) scanErr
              ⟨s, z + (e.stop - e.start), 0, ""⟩ soft := by
        simp [nrmrLoop, Nat.not_le.mpr hstop, hkind, hperm, hs, h2, h3]
      rw [hstep]
      have hz2 : s + (z + (e.stop - e.start)) = e.stop := by omega
      have hrec := nrmrLoop_extend a ext s (z + (e.stop - e.start)) rest scanErr soft hs
        (by omega) (by rw [hz2]; exact hrest)
      rw [hrec]
      have hsz : (z + (e.stop - e.start)) + (ext.map (fun x => x.stop - x.start)).sum
          = z + ((e :: ext).map (fun x => x.stop - x.start)).sum := by
        simp [List.map_cons, List.sum_cons]
        omega
      rw [hsz]

/-- While a region is accumulating, an entry (ending above `a`, not
`[vsyscall]`) that is unreadable or not contiguous with the accumulated
end makes the loop return the accumulated region with a nil fatal error. -/
theorem nrmrLoop_close (a : Nat) (c : MapsEntry) (rest : List MapsLine)
    (scanErr : Option String) (region : MemoryRegion) (soft : List String)
    (hstop : a < c.stop) (hkind : c.kind ≠ "[vsyscall]") (hz : region.Address ≠ 0)
    (hclose : c.permR = '-' ∨ uadd region.Address region.Size ≠ c.start) :
    nrmrLoop a (.entry c :: rest) scanErr region soft = (region, none, soft) := by
  rcases hclose with hp | hc
  · simp [nrmrLoop, Nat.not_le.mpr hstop, hkind, hp, hz]
  · by_cases hp : c.permR = '-'
    · simp [nrmrLoop, Nat.not_le.mpr hstop, hkind, hp, hz]
    · simp [nrmrLoop, Nat.not_le.mpr hstop, hkind, hp, hz, hc]

/-- Counterexample to C1: on a listing whose first readable entry (end
above the starting address) has base address 0 followed by an unreadable
entry, the claim puts the returned region's size at the merged entry's
size `0x2000`, but the call returns the sentinel (size 0) — base 0 never
registers as an accumulation. -/
theorem nextReadable_zero_base_merge_cex :
    (nextReadableMemoryRegion none
        [.entry ⟨"0-2000", 0, 8192, 'r', '-', '-', ""⟩,
         .entry ⟨"2000-3000", 8192, 12288, '-', '-', '-', ""⟩] none 0).1.Size
      ≠ 8192 := by decide

/-- C1 as amended: past any passed-over lines, `nextReadableMemoryRegion`
starts a region at the first readable, non-`[vsyscall]` entry that ends
above the starting address and has a nonzero base, extends it by each
following contiguous readable entry of the run, and returns the
accumulated region with a nil fatal error as soon as an entry (ending
above the starting address, not `[vsyscall]`) is unreadable or
non-contiguous; the returned size is the sum of the merged entries'
sizes. -/
theorem nextReadable_merges_contiguous (pre : List MapsLine) (e0 : MapsEntry)
    (ext : List MapsEntry) (c : MapsEntry) (rest : List MapsLine)
    (scanErr : Option String) (a : Nat)
    (hpre : ∀ l ∈ pre, skipForNRMR a l)
    (h0stop : a < e0.stop) (h0kind : e0.kind ≠ "[vsyscall]") (h0perm : e0.permR ≠ '-')
    (h0start : e0.start ≠ 0) (h0le : e0.start ≤ e0.stop) (h0w : e0.stop < wordSize)
    (hext : extChain a e0.stop ext)
    (hcstop : a < c.stop) (hckind : c.kind ≠ "[vsyscall]")
    (hclose : c.permR = '-' ∨ chainEnd e0.stop ext ≠ c.start) :
    (nextReadableMemoryRegion none
        (pre ++ .entry e0 :: (ext.map .entry ++ .entry c :: rest)) scanErr a).1
      = ⟨e0.start, (e0.stop - e0.start) + (ext.map (fun x => x.stop - x.start)).sum, 0, ""⟩
    ∧ (nextReadableMemoryRegion none
        (pre ++ .entry e0 :: (ext.map .entry ++ .entry c :: rest)) scanErr a).2.1
      = none := by
  obtain ⟨soft2, hskip⟩ := nrmrLoop_skip a pre hpre
    (.entry e0 :: (ext.map .entry ++ .entry c :: rest)) scanErr []
  have hres : nextReadableMemoryRegion none
      (pre ++ .entry e0 :: (ext.map .entry ++ .entry c :: rest)) scanErr a
      = nrmrLoop a (.entry e0 :: (ext.map .entry ++ .entry c :: rest)) scanErr
          ⟨0, 0, 0, ""⟩ soft2 := hskip
  rw [hres, nrmrLoop_start a e0 _ scanErr soft2 h0stop h0kind h0perm]
  have husub : usub e0.stop e0.start = e0.stop - e0.start :=
    usub_eq h0le (lt_of_le_of_lt (Nat.sub_le _ _) h0w)
  rw [husub]
  have hsz : e0.start + (e0.stop - e0.start) = e0.stop := by omega
  have hext2 : extChain a (e0.start + (e0.stop - e0.start)) ext := by
    rw [hsz]; exact hext
  rw [nrmrLoop_extend a ext e0.start (e0.stop - e0.start) (.entry c :: rest)
    scanErr soft2 h0start (by omega) hext2]
  have hend := extChain_end a ext e0.stop hext
  have hc2 : c.permR = '-'
      ∨ uadd e0.start ((e0.stop - e0.start)
          + (ext.map (fun x => x.stop - x.start)).sum) ≠ c.start := by
    rcases hclose with h | h
    · exact Or.inl h
    · refine Or.inr ?_
      obtain ⟨he1, he2⟩ := hend
      have h4 := he2 h0w
      have hlt : e0.start + ((e0.stop - e0.start)
          + (ext.map (fun x => x.stop - x.start)).sum) < wordSize := by omega
      have heq : e0.start + ((e0.stop - e0.start)
          + (ext.map (fun x => x.stop - x.start)).sum) = chainEnd e0.stop ext := by omega
      rw [uadd_eq hlt, heq]
      exact h
  rw [nrmrLoop_close a c rest scanErr _ soft2 hcstop hckind h0start hc2]
  exact ⟨rfl, rfl⟩

/-- Witness for the amended C1: two contiguous readable mappings merged
into one region of summed size, closed by an unreadable entry. -/
theorem nextReadable_merges_contiguous_witness :
    (nextReadableMemoryRegion none
        ([] ++ .entry ⟨"1000-2000", 4096, 8192, 'r', '-', '-', ""⟩ ::
          (([⟨"2000-3000", 8192, 12288, 'r', '-', '-', "[heap]"⟩] : List MapsEntry).map
              MapsLine.entry
            ++ .entry ⟨"5000-6000", 20480, 24576, '-', '-', '-', ""⟩ :: [])) none 0).1
      = ⟨4096, (8192 - 4096)
          + (([⟨"2000-3000", 8192, 12288, 'r', '-', '-', "[heap]"⟩] : List MapsEntry).map
              (fun x => x.stop - x.start)).sum, 0, ""⟩
    ∧ (nextReadableMemoryRegion none
        ([] ++ .entry ⟨"1000-2000", 4096, 8192, 'r', '-', '-', ""⟩ ::
          (([⟨"2000-3000", 8192, 12288, 'r', '-', '-', "[heap]"⟩] : List MapsEntry).map
              MapsLine.entry
            ++ .entry ⟨"5000-6000", 20480, 24576, '-', '-', '-', ""⟩ :: [])) none 0).2.1
      = none :=
  nextReadable_merges_contiguous [] ⟨"1000-2000", 4096, 8192, 'r', '-', '-', ""⟩
    [⟨"2000-3000", 8192, 12288, 'r', '-', '-', "[heap]"⟩]
    ⟨"5000-6000", 20480, 24576, '-', '-', '-', ""⟩ [] none 0
    (by simp) (by decide) (by decide) (by decide) (by decide) (by decide) (by decide)
    (by decide) (by decide) (by decide) (Or.inl rfl)

/-! Ordered, disjoint enumeration: specification of a single call and of
call sequences that resume from the previous region's end. -/

def entryWF (e : MapsEntry) : Prop := e.start < e.stop ∧ e.stop < wordSize

def isBoundary (es : List MapsEntry) (x : Nat) : Prop := ∃ e ∈ es, x = e.stop

def noCut (es : List MapsEntry) (a : Nat) : Prop := ∀ e ∈ es, e.stop ≤ a ∨ a ≤ e.start

def goodRegion (es : List MapsEntry) (a : Nat) (r : MemoryRegion) : Prop :=
  0 < r.Size ∧ isBoundary es (r.Address + r.Size) ∧ (noCut es a → a ≤ r.Address)

def regionSpec (es : List MapsEntry) (a : Nat) (r : MemoryRegion) : Prop :=
  r = NoRegionAvailable ∨ goodRegion es a r

def callSpec (es : List MapsEntry) (call : Nat → MemoryRegion) : Prop :=
  ∀ a, regionSpec es a (call a)

theorem chain_head (g : MapsEntry) : ∀ (tl : List MapsEntry),
    List.Chain' (fun p q => p.stop ≤ q.start) (g :: tl) →
    (∀ e ∈ g :: tl, e.start < e.stop) →
    ∀ x ∈ tl, g.stop ≤ x.start
  | [], _, _, x, hx => absurd hx (List.not_mem_nil _)
  | t :: tl, hchain, hwf, x, hx => by
      have h1 : g.stop ≤ t.start := (List.chain'_cons.mp hchain).1
      rcases List.mem_cons.mp hx with rfl | hx2
      · exact h1
      · have h2 := chain_head t tl (List.chain'_cons.mp hchain).2
          (fun e he => hwf e (List.mem_cons_of_mem _ he)) x hx2
        have h3 : t.start < t.stop := hwf t (List.mem_cons_of_mem _ (List.mem_cons_self _ _))
        omega

theorem chain_sep : ∀ (es : List MapsEntry),
    List.Chain' (fun p q => p.stop ≤ q.start) es →
    (∀ e ∈ es, e.start < e.stop) →
    ∀ e ∈ es, ∀ f ∈ es, f.stop ≤ e.stop ∨ e.stop ≤ f.start
  | [], _, _, e, he, _, _ => absurd he (List.not_mem_nil _)
  | g :: tl, hchain, hwf, e, he, f, hf => by
      rcases List.mem_cons.mp he with rfl | he2
      · rcases List.mem_cons.mp hf with rfl | hf2
        · exact Or.inl le_rfl
        · exact Or.inr (chain_head e tl hchain hwf f hf2)
      · rcases List.mem_cons.mp hf with rfl | hf2
        · have h1 : f.stop ≤ e.start := chain_head f tl hchain hwf e he2
          have h2 : e.start < e.stop := hwf e (List.mem_cons_of_mem _ he2)
          exact Or.inl (by omega)
        · exact chain_sep tl hchain.tail
            (fun x hx => hwf x (List.mem_cons_of_mem _ hx)) e he2 f hf2

theorem boundary_noCut (es : List MapsEntry)
    (hchain : List.Chain' (fun p q => p.stop ≤ q.start) es)
    (hwf : ∀ e ∈ es, e.start < e.stop) {x : Nat} (hb : isBoundary es x) :
    noCut es x := by
  obtain ⟨b, hbm, rfl⟩ := hb
  intro f hf
  exact chain_sep es hchain hwf b hbm f hf

theorem nmrLoop_spec (es : List MapsEntry) (hwf : ∀ e ∈ es, entryWF e) (a : Nat) :
    ∀ (sfx : List MapsEntry), (∀ e ∈ sfx, e ∈ es) →
    ∀ (region : MemoryRegion) (soft : List String),
    regionSpec es a (nmrLoop a (sfx.map .entry) region soft).1
  | [], _, region, soft => Or.inl rfl
  | e :: sfx, hsub, region, soft => by
      have hsub2 : ∀ x ∈ sfx, x ∈ es := fun x hm => hsub x (List.mem_cons_of_mem _ hm)
      have he : e ∈ es := hsub e (List.mem_cons_self _ _)
      by_cases hk : e.kind = "[vsyscall]"
      · simpa [nmrLoop, hk] using nmrLoop_spec es hwf a sfx hsub2 region soft
      · by_cases hle : e.stop ≤ a
        · simpa [nmrLoop, hk, hle] using nmrLoop_spec es hwf a sfx hsub2 region soft
        · right
          obtain ⟨hwf1, hwf2⟩ := hwf e he
          have husub : usub e.stop e.start = e.stop - e.start :=
            usub_eq (le_of_lt hwf1) (lt_of_le_of_lt (Nat.sub_le _ _) hwf2)
          have hres : (nmrLoop a ((e :: sfx).map .entry) region soft).1
              = ⟨e.start, usub e.stop e.start, accessOf e, e.kind⟩ := by
            simp [nmrLoop, hk, hle]
          rw [hres, husub]
          refine ⟨?_, ⟨e, he, ?_⟩, fun hnc => ?_⟩
          · show 0 < e.stop - e.start
            omega
          · show e.start + (e.stop - e.start) = e.stop
            omega
          · show a ≤ e.start
            rcases hnc e he with h | h
            · exact absurd h hle
            · exact h

theorem nrmrLoop_spec (es : List MapsEntry) (hwf : ∀ e ∈ es, entryWF e) (a : Nat) :
    ∀ (sfx : List MapsEntry), (∀ e ∈ sfx, e ∈ es) →
    ∀ (region : MemoryRegion) (soft : List String) (scanErr : Option String),
    (region.Address = 0 ∨ goodRegion es a region) →
    regionSpec es a (nrmrLoop a (sfx.map .entry) scanErr region soft).1
  | [], _, region, soft, scanErr, hinv => by
      cases scanErr with
      | some err => exact Or.inl rfl
      | none =>
        by_cases hz : region.Address > 0
        · have hres : (nrmrLoop a (([] : List MapsEntry).map .entry) none region soft).1
              = region := by simp [nrmrLoop, hz]
          rw [hres]
          rcases hinv with h0 | hg
          · omega
          · exact Or.inr hg
        · exact Or.inl (by simp [nrmrLoop, hz])
  | e :: sfx, hsub, region, soft, scanErr, hinv => by
      have hsub2 : ∀ x ∈ sfx, x ∈ es := fun x hm => hsub x (List.mem_cons_of_mem _ hm)
      have he : e ∈ es := hsub e (List.mem_cons_self _ _)
      obtain ⟨hwf1, hwf2⟩ := hwf e he
      by_cases hle : e.stop ≤ a
      · simpa [nrmrLoop, hle] using
          nrmrLoop_spec es hwf a sfx hsub2 region soft scanErr hinv
      · by_cases hk : e.kind = "[vsyscall]"
        · simpa [nrmrLoop, hle, hk] using
            nrmrLoop_spec es hwf a sfx hsub2 region soft scanErr hinv
        · by_cases hp : e.permR = '-'
          · by_cases hz : region.Address = 0
            · simpa [nrmrLoop, hle, hk, hp, hz] using
                nrmrLoop_spec es hwf a sfx hsub2 region
                  (soft ++ ["Unreadable memory " ++ e.rangeStr]) scanErr hinv
            · have hres : (nrmrLoop a ((e :: sfx).map .entry) scanErr region soft).1
                  = region := by simp [nrmrLoop, hle, hk, hp, hz]
              rw [hres]
              rcases hinv with h0 | hg
              · exact absurd h0 hz
              · exact Or.inr hg
          · have husub : usub e.stop e.start = e.stop - e.start :=
              usub_eq (le_of_lt hwf1) (lt_of_le_of_lt (Nat.sub_le _ _) hwf2)
            by_cases hz : region.Address = 0
            · have hgood : (⟨e.start, usub e.stop e.start, 0, ""⟩ : MemoryRegion).Address = 0
                  ∨ goodRegion es a ⟨e.start, usub e.stop e.start, 0, ""⟩ := by
                by_cases hs0 : e.start = 0
                · exact Or.inl hs0
                · refine Or.inr ⟨?_, ⟨e, he, ?_⟩, fun hnc => ?_⟩
                  · show 0 < usub e.stop e.start
                    rw [husub]; omega
                  · show e.start + usub e.stop e.start = e.stop
                    rw [husub]; omega
                  · show a ≤ e.start
                    rcases hnc e he with h | h
                    · exact absurd h hle
                    · exact h
              simpa [nrmrLoop, hle, hk, hp, hz] using
                nrmrLoop_spec es hwf a sfx hsub2 ⟨e.start, usub e.stop e.start, 0, ""⟩
                  soft scanErr hgood
            · rcases hinv with h0 | hg
              · exact absurd h0 hz
              obtain ⟨hg1, ⟨b, hbm, hbe⟩, hg3⟩ := hg
              obtain ⟨hbwf1, hbwf2⟩ := hwf b hbm
              have hendlt : region.Address + region.Size < wordSize := by
                rw [hbe]; exact hbwf2
              by_cases hc : uadd region.Address region.Size = e.start
              · have hc2 : region.Address + region.Size = e.start := by
                  rwa [uadd_eq hendlt] at hc
                have hnewsize : uadd region.Size (usub e.stop e.start)
                    = region.Size + (e.stop - e.start) := by
                  rw [husub]; exact uadd_eq (by omega)
                have hgood : (⟨region.Address, uadd region.Size (usub e.stop e.start),
                      region.Access, region.Kind⟩ : MemoryRegion).Address = 0
                    ∨ goodRegion es a ⟨region.Address,
                        uadd region.Size (usub e.stop e.start),
                        region.Access, region.Kind⟩ := by
                  refine Or.inr ⟨?_, ⟨e, he, ?_⟩, fun hnc => ?_⟩
                  · show 0 < uadd region.Size (usub e.stop e.start)
                    rw [hnewsize]; omega
                  · show region.Address + uadd region.Size (usub e.stop e.start) = e.stop
                    rw [hnewsize]; omega
                  · show a ≤ region.Address
                    exact hg3 hnc
                simpa [nrmrLoop, hle, hk, hp, hz, hc] using
                  nrmrLoop_spec es hwf a sfx hsub2
                    ⟨region.Address, uadd region.Size (usub e.stop e.start),
                      region.Access, region.Kind⟩ soft scanErr hgood
              · have hres : (nrmrLoop a ((e :: sfx).map .entry) scanErr region soft).1
                    = region := by simp [nrmrLoop, hle, hk, hp, hz, hc]
                rw [hres]
                exact Or.inr ⟨hg1, ⟨b, hbm, hbe⟩, hg3⟩

theorem nmr_callSpec (es : List MapsEntry) (hwf : ∀ e ∈ es, entryWF e) :
    callSpec es (fun x => (nextMemoryRegion none (es.map .entry) none x).1) := by
  intro a
  show regionSpec es a (nmrLoop a (es.map .entry) ⟨0, 0, 0, ""⟩ []).1
  exact nmrLoop_spec es hwf a es (fun _ h => h) _ _

theorem nrmr_callSpec (es : List MapsEntry) (hwf : ∀ e ∈ es, entryWF e) :
    callSpec es (fun x => (nextReadableMemoryRegion none (es.map .entry) none x).1) := by
  intro a
  show regionSpec es a (nrmrLoop a (es.map .entry) none ⟨0, 0, 0, ""⟩ []).1
  exact nrmrLoop_spec es hwf a es (fun _ h => h) _ _ none (Or.inl rfl)

def enumSeq (call : Nat → MemoryRegion) : Nat → Nat → List MemoryRegion
  | 0, _ => []
  | fuel + 1, a =>
      let r := call a
      if r = NoRegionAvailable then []
      else r :: enumSeq call fuel (r.Address + r.Size)

def nmrSeq (es : List MapsEntry) (a fuel : Nat) : List MemoryRegion :=
  enumSeq (fun x => (nextMemoryRegion none (es.map .entry) none x).1) fuel a

def nrmrSeq (es : List MapsEntry) (a fuel : Nat) : List MemoryRegion :=
  enumSeq (fun x => (nextReadableMemoryRegion none (es.map .entry) none x).1) fuel a

theorem enumSeq_mem (es : List MapsEntry) (call : Nat → MemoryRegion)
    (hcall : callSpec es call)
    (hchain : List.Chain' (fun p q => p.stop ≤ q.start) es)
    (hwf : ∀ e ∈ es, e.start < e.stop) :
    ∀ (fuel a : Nat), noCut es a →
    ∀ r ∈ enumSeq call fuel a,
      a ≤ r.Address ∧ 0 < r.Size ∧ isBoundary es (r.Address + r.Size)
  | 0, a, _, r, hr => absurd hr (List.not_mem_nil _)
  | fuel + 1, a, hnc, r, hr => by
      by_cases hs : call a = NoRegionAvailable
      · simp [enumSeq, hs] at hr
      · rw [show enumSeq call (fuel + 1) a
            = call a :: enumSeq call fuel ((call a).Address + (call a).Size) from by
          simp [enumSeq, hs]] at hr
        rcases hcall a with h | hg
        · exact absurd h hs
        obtain ⟨hg1, hg2, hg3⟩ := hg
        have hra : a ≤ (call a).Address := hg3 hnc
        have hnc2 : noCut es ((call a).Address + (call a).Size) :=
          boundary_noCut es hchain hwf hg2
        rcases List.mem_cons.mp hr with rfl | hrm
        · exact ⟨hra, hg1, hg2⟩
        · obtain ⟨h1, h2, h3⟩ :=
            enumSeq_mem es call hcall hchain hwf fuel _ hnc2 r hrm
          exact ⟨by omega, h2, h3⟩

theorem enumSeq_pairwise (es : List MapsEntry) (call : Nat → MemoryRegion)
    (hcall : callSpec es call)
    (hchain : List.Chain' (fun p q => p.stop ≤ q.start) es)
    (hwf : ∀ e ∈ es, e.start < e.stop) :
    ∀ (fuel a : Nat),
    List.Pairwise
      (fun r1 r2 => r1.Address < r2.Address ∧ r1.Address + r1.Size ≤ r2.Address)
      (enumSeq call fuel a)
  | 0, a => List.Pairwise.nil
  | fuel + 1, a => by
      by_cases hs : call a = NoRegionAvailable
      · rw [show enumSeq call (fuel + 1) a = [] from by simp [enumSeq, hs]]
        exact List.Pairwise.nil
      · rw [show enumSeq call (fuel + 1) a
            = call a :: enumSeq call fuel ((call a).Address + (call a).Size) from by
          simp [enumSeq, hs]]
        refine List.Pairwise.cons ?_
          (enumSeq_pairwise es call hcall hchain hwf fuel _)
        intro r hr
        rcases hcall a with h | hg
        · exact absurd h hs
        obtain ⟨hg1, hg2, hg3⟩ := hg
        have hnc2 : noCut es ((call a).Address + (call a).Size) :=
          boundary_noCut es hchain hwf hg2
        obtain ⟨h1, h2, h3⟩ := enumSeq_mem es call hcall hchain hwf fuel _ hnc2 r hr
        exact ⟨by omega, by omega⟩

/-- C5: over a well-formed listing of entries sorted by strictly
increasing start address and pairwise disjoint (each entry ends at or
before the next one starts), successive enumerator calls that each resume
from the end address (base plus size) of the previously returned region
yield non-sentinel regions that are strictly increasing in base address
and whose half-open intervals are pairwise disjoint (each returned region
ends at or before any later one begins) — for both `nextMemoryRegion` and
`nextReadableMemoryRegion`. -/
theorem enumeration_monotone_disjoint (es : List MapsEntry) (a fuel : Nat)
    (hwf : ∀ e ∈ es, e.start < e.stop ∧ e.stop < wordSize)
    (hchain : List.Chain' (fun p q => p.stop ≤ q.start) es) :
    List.Pairwise
      (fun r1 r2 => r1.Address < r2.Address ∧ r1.Address + r1.Size ≤ r2.Address)
      (nmrSeq es a fuel)
    ∧ List.Pairwise
      (fun r1 r2 => r1.Address < r2.Address ∧ r1.Address + r1.Size ≤ r2.Address)
      (nrmrSeq es a fuel) := by
  have hwf3 : ∀ e ∈ es, e.start < e.stop := fun e he => (hwf e he).1
  exact ⟨enumSeq_pairwise es _ (nmr_callSpec es hwf) hchain hwf3 fuel a,
         enumSeq_pairwise es _ (nrmr_callSpec es hwf) hchain hwf3 fuel a⟩

/-- Witness for C5 on a two-entry listing, three calls of fuel. -/
theorem enumeration_monotone_disjoint_witness :
    List.Pairwise
      (fun r1 r2 => r1.Address < r2.Address ∧ r1.Address + r1.Size ≤ r2.Address)
      (nmrSeq [⟨"1000-2000", 4096, 8192, 'r', '-', '-', ""⟩,
               ⟨"2000-3000", 8192, 12288, '-', '-', '-', ""⟩] 0 3)
    ∧ List.Pairwise
      (fun r1 r2 => r1.Address < r2.Address ∧ r1.Address + r1.Size ≤ r2.Address)
      (nrmrSeq [⟨"1000-2000", 4096, 8192, 'r', '-', '-', ""⟩,
               ⟨"2000-3000", 8192, 12288, '-', '-', '-', ""⟩] 0 3) :=
  enumeration_monotone_disjoint
    [⟨"1000-2000", 4096, 8192, 'r', '-', '-', ""⟩,
     ⟨"2000-3000", 8192, 12288, '-', '-', '-', ""⟩] 0 3
    (by decide) (List.Chain.cons (by decide) List.Chain.nil)

end Memaccess

